import Mathlib

/-!
Verification of the git-meta multi-repository change-application and
sequencing engine.

This development gives a shallow embedding, in Lean, of the core functions of
the engine:

* `DoWorkQueue.doInParallel` / `DoWorkQueue.doInBatches`
  (`node/lib/util/do_work_queue.js`),
* the `SequencerState` value type and its on-disk store
  (`node/lib/util/sequencer_state_util.js`),
* the change classifier `computeChanges`, the recursive picker `pickSubs`,
  the conflict renderer `writeConflicts`, and the `cherryPick` entry point
  (`node/lib/util/open.js`),
* the `.gitmodules` parser `parseSubmoduleConfig`
  (`node/lib/util/submodule_config_util.js`),

and proves the behavioural properties stated in the specification against
these definitions.

JavaScript strings are modelled as `List Char` (named `Str` below); JS
`null`-able values are modelled with `Option`; thrown exceptions are modelled
with `Except`.  Asynchronous execution of the bounded work queue is modelled
by an explicit nondeterministic scheduler: a schedule is a list of worker
indices, and one proves properties of every complete execution.
-/

/-- JavaScript strings are modelled as lists of characters. -/
abbrev Str := List Char

deriving instance DecidableEq for Except

namespace GitMeta

/-! ## String primitives

`jsSplit sep s` models JavaScript's `s.split(sep)` for a one-character
separator (the only form the embedded code uses, with `sep = '\n'`). -/

/-- Model of JS `String.prototype.split` with a single-character separator:
splitting never yields `[]`; an empty string splits to `[[]]`. -/
def jsSplit (sep : Char) : Str → List Str
  | [] => [[]]
  | c :: rest =>
    if c = sep then [] :: jsSplit sep rest
    else
      match jsSplit sep rest with
      | [] => [[c]]
      | h :: t => (c :: h) :: t

/-- Numeric value of a decimal digit list, accumulated left to right. -/
def digitsVal (acc : Nat) : Str → Nat
  | [] => acc
  | c :: rest => digitsVal (acc * 10 + (c.toNat - '0'.toNat)) rest

/-- Numeric value of a hexadecimal digit list, accumulated left to right. -/
def hexDigitsVal (acc : Nat) : Str → Nat
  | [] => acc
  | c :: rest =>
    let d := if '0' ≤ c ∧ c ≤ '9' then c.toNat - '0'.toNat
             else if 'a' ≤ c ∧ c ≤ 'f' then c.toNat - 'a'.toNat + 10
             else c.toNat - 'A'.toNat + 10
    hexDigitsVal (acc * 16 + d) rest

/-- Is `c` a hexadecimal digit? -/
def isHexDigit (c : Char) : Bool :=
  c.isDigit || ('a' ≤ c && c ≤ 'f') || ('A' ≤ c && c ≤ 'F')

/-- Model of `Number.parseInt(s)` (radix unspecified): skip leading
whitespace, take an optional sign, detect a `0x`/`0X` prefix, consume the
longest run of digits and ignore whatever follows; `none` models `NaN`. -/
def parseInt (s : Str) : Option Int :=
  let cs := s.dropWhile Char.isWhitespace
  let cs1 := if cs.head? = some '-' ∨ cs.head? = some '+' then cs.tail else cs
  let hex := cs1.head? = some '0' ∧
             (cs1.tail.head? = some 'x' ∨ cs1.tail.head? = some 'X')
  let cs2 := if hex then cs1.tail.tail else cs1
  let digits := if hex then cs2.takeWhile isHexDigit
                else cs2.takeWhile Char.isDigit
  if digits = [] then none
  else
    let v : Nat := if hex then hexDigitsVal 0 digits else digitsVal 0 digits
    some (if cs.head? = some '-' then -(v : Int) else (v : Int))

/-- Decimal digit character of `n < 10` (callers pass `n % 10` or `n < 10`). -/
def digitChar : Nat → Char
  | 0 => '0' | 1 => '1' | 2 => '2' | 3 => '3' | 4 => '4'
  | 5 => '5' | 6 => '6' | 7 => '7' | 8 => '8' | _ => '9'

/-- Digit-producing loop of `renderNat`, structured with a fuel argument
(`fuel >= n` suffices) so that it evaluates by kernel reduction. -/
def renderNatGo : Nat → Nat → Str
  | _, 0 => [digitChar 0]
  | 0, n + 1 => [digitChar (n + 1)]
  | f + 1, n + 1 =>
    if n + 1 < 10 then [digitChar (n + 1)]
    else renderNatGo f ((n + 1) / 10) ++ [digitChar ((n + 1) % 10)]

/-- Decimal rendering of a natural number, as JS `"" + n` produces. -/
def renderNat (n : Nat) : Str := renderNatGo n n

/-- Model of JS `"" + n` for an integer `n`. -/
def renderInt (i : Int) : Str :=
  if i < 0 then '-' :: renderNat i.natAbs else renderNat i.natAbs

/-- Association-list lookup keyed by string, modelling JS object indexing
`obj[key]` and `tree.entryByPath` over the modelled tree. -/
def lookupStr (key : Str) : List (Str × β) → Option β
  | [] => none
  | (k, v) :: rest => if k = key then some v else lookupStr key rest

/-- Model of JS `Array.prototype.join` with a one-character separator. -/
def jsJoin (sep : Char) : List Str → Str
  | [] => []
  | [x] => x
  | x :: y :: rest => x ++ sep :: jsJoin sep (y :: rest)

/-! ## SequencerState and its on-disk store

Models `node/lib/util/sequencer_state.js` (the value type, with its
constructor assertions) and `node/lib/util/sequencer_state_util.js` (the
store).  A sequencer directory is modelled as five optional file contents;
`none` models a file that is absent or unreadable (`readFile` returns null).
A thrown `chai` assertion is modelled as `Except.error`. -/

/-- The three values of `SequencerState.TYPE`. -/
inductive SeqType where
  | CHERRY_PICK
  | MERGE
  | REBASE
deriving DecidableEq, Repr

/-- On-disk spelling of each operation type. -/
def seqTypeStr : SeqType → Str
  | .CHERRY_PICK => "CHERRY_PICK".toList
  | .MERGE => "MERGE".toList
  | .REBASE => "REBASE".toList

/-- Membership test `type in SequencerState.TYPE`, returning the tag. -/
def parseSeqType (s : Str) : Option SeqType :=
  if s = "CHERRY_PICK".toList then some .CHERRY_PICK
  else if s = "MERGE".toList then some .MERGE
  else if s = "REBASE".toList then some .REBASE
  else none

/-- A commit sha and, optionally, the name of the ref it came from. -/
structure CommitAndRef where
  sha : Str
  ref : Option Str
deriving DecidableEq, Repr

/-- The state of an in-progress sequenced operation.  The JS constructor
asserts `0 <= currentCommit` and `currentCommit < commits.length`; a value
violating those bounds cannot be constructed (the constructor throws). -/
structure SequencerState where
  type : SeqType
  originalHead : CommitAndRef
  target : CommitAndRef
  commits : List Str
  currentCommit : Int
deriving DecidableEq, Repr

/-- The constructor of `SequencerState`, with its `assert`s: a violated
assertion throws, modelled by `Except.error`. -/
def mkSequencerState (type : SeqType) (originalHead target : CommitAndRef)
    (commits : List Str) (currentCommit : Int) :
    Except Str SequencerState :=
  if 0 ≤ currentCommit ∧ currentCommit < (commits.length : Int) then
    .ok ⟨type, originalHead, target, commits, currentCommit⟩
  else
    .error "assertion failed in SequencerState constructor".toList

/-- The five files of the `meta_sequencer` directory; `none` models a file
whose read fails (absent file or absent directory). -/
structure SeqDir where
  typeFile : Option Str
  originalHeadFile : Option Str
  targetFile : Option Str
  commitsFile : Option Str
  currentCommitFile : Option Str
deriving DecidableEq, Repr

/-- An absent sequencer directory: every read fails. -/
def SeqDir.absent : SeqDir := ⟨none, none, none, none, none⟩

/-- `readCommitAndRef`: one line is a bare sha, two lines add a ref name,
anything else is malformed. -/
def readCommitAndRef : Option Str → Option CommitAndRef
  | none => none
  | some content =>
    let lines := jsSplit '\n' content
    let numLines := lines.length - 1
    if numLines = 1 then some ⟨lines.getD 0 [], none⟩
    else if numLines = 2 then some ⟨lines.getD 0 [], some (lines.getD 1 [])⟩
    else none

/-- `readCommits`: the non-empty lines of the COMMITS file, or `none` when
the file is missing or holds no commit. -/
def readCommits : Option Str → Option (List Str)
  | none => none
  | some content =>
    let nonEmpty := (jsSplit '\n' content).filter (fun l => 0 < l.length)
    if nonEmpty = [] then none else some nonEmpty

/-- `readCurrentCommit`: parse the first line of the CURRENT_COMMIT file and
reject an index at or above `numCommits`.  Note that the code places no
lower bound on the parsed index. -/
def readCurrentCommit (content? : Option Str) (numCommits : Nat) :
    Option Int :=
  match content? with
  | none => none
  | some content =>
    let lines := jsSplit '\n' content
    if lines.length ≠ 0 then
      match parseInt (lines.getD 0 []) with
      | some index => if index < (numCommits : Int) then some index else none
      | none => none
    else none

/-- `readSequencerState`: parse the five records, returning `ok none` when
any is missing or malformed; the final `SequencerState` constructor call can
throw (`error`). -/
def readSequencerState (d : SeqDir) : Except Str (Option SequencerState) :=
  match d.typeFile with
  | none => .ok none
  | some typeContent =>
    let typeLines := jsSplit '\n' typeContent
    if typeLines.length ≠ 2 then .ok none
    else
      match parseSeqType (typeLines.getD 0 []) with
      | none => .ok none
      | some type =>
        match readCommitAndRef d.originalHeadFile with
        | none => .ok none
        | some original =>
          match readCommitAndRef d.targetFile with
          | none => .ok none
          | some target =>
            match readCommits d.commitsFile with
            | none => .ok none
            | some commits =>
              match readCurrentCommit d.currentCommitFile commits.length with
              | none => .ok none
              | some currentCommit =>
                (mkSequencerState type original target commits
                                  currentCommit).map some

/-- Rendering of a `CommitAndRef`: the sha line, then the ref line if any. -/
def renderCommitAndRef (c : CommitAndRef) : Str :=
  c.sha ++ '\n' :: (match c.ref with | some r => r ++ ['\n'] | none => [])

/-- `writeSequencerState`: remove any existing directory, then write the
five records.  The resulting directory contents are returned. -/
def writeSequencerState (state : SequencerState) : SeqDir :=
  { typeFile := some (seqTypeStr state.type ++ ['\n']),
    originalHeadFile := some (renderCommitAndRef state.originalHead),
    targetFile := some (renderCommitAndRef state.target),
    commitsFile := some (jsJoin '\n' state.commits),
    currentCommitFile := some (renderInt state.currentCommit) }

/-! ## Bounded parallel work queue (`node/lib/util/do_work_queue.js`)

`doInParallel` spawns `MAX_WORK` cooperative worker coroutines over a shared
`next` counter and result array.  The asynchronous execution is modelled as
a small-step system: a schedule is a list of worker indices, each step
resumes one worker, and properties are proved for every schedule whose
final state has all workers finished.  The set of modelled interleavings
contains every interleaving the JS event loop can produce. -/

/-- `MAX_WORK`: the concurrency ceiling of `doInParallel`. -/
def MAX_WORK : Nat := 100

/-- Control point of one worker coroutine of `doInParallel`: at the `while`
loop head, holding the claimed item `current`, or finished. -/
inductive WState where
  | ready
  | running (current : Nat)
  | done
deriving DecidableEq, Repr

/-- Shared state of a `doInParallel` run: the `next` counter, the result
array (`none` marks a hole not yet assigned) and the worker states. -/
structure PState (β : Type) where
  next : Nat
  result : List (Option β)
  workers : List WState
deriving DecidableEq, Repr

/-- State after `doInParallel` has set up its counter, result array of the
queue's length, and `MAX_WORK` workers, before any work has run. -/
def initPState (β : Type) (queue : List α) : PState β :=
  ⟨0, List.replicate queue.length none, List.replicate MAX_WORK .ready⟩

/-- One scheduler step: resume worker `w`.  A worker at the loop head
either finishes (`next === total`) or claims item `next` and increments the
counter; a worker holding item `i` stores `getWork(queue[i], i)` at index
`i` of the result and returns to the loop head.  Resuming a finished or
nonexistent worker changes nothing. -/
def pstep (queue : List α) (getWork : α → Nat → β) (s : PState β) (w : Nat) :
    PState β :=
  match s.workers.get? w with
  | some .ready =>
    if s.next = queue.length then { s with workers := s.workers.set w .done }
    else { s with next := s.next + 1,
                  workers := s.workers.set w (.running s.next) }
  | some (.running i) =>
    { s with result := s.result.set i ((queue.get? i).map (fun a => getWork a i)),
             workers := s.workers.set w .ready }
  | _ => s

/-- Run a whole schedule (a list of scheduler choices) from the initial
state. -/
def execSchedule (queue : List α) (getWork : α → Nat → β)
    (choices : List Nat) : PState β :=
  choices.foldl (pstep queue getWork) (initPState β queue)

/-- Every worker has finished: the `yield work` join has completed and
`doInParallel` returns `result`. -/
def PState.allDone (s : PState β) : Bool := s.workers.all (· == .done)

/-- Invariant of the `doInParallel` step system: the counter stays in
range, the result array and worker pool keep their sizes, every claimed
index is either already resolved to its work result or held by some
running worker, running workers hold claimed indices, and a finished
worker certifies an exhausted queue. -/
def parallelInv (queue : List α) (getWork : α → Nat → β) (s : PState β) :
    Prop :=
  s.next ≤ queue.length ∧
  s.result.length = queue.length ∧
  s.workers.length = MAX_WORK ∧
  (∀ i, i < s.next →
    s.result.get? i = some ((queue.get? i).map (fun a => getWork a i)) ∨
    ∃ w, s.workers.get? w = some (.running i)) ∧
  (∀ w i, s.workers.get? w = some (.running i) → i < s.next) ∧
  (WState.done ∈ s.workers → s.next = queue.length)

/-- The chunking loop of `doInBatches`, structured with a fuel argument
(`fuel >= q.length` suffices) so that it evaluates by kernel reduction:
repeatedly `splice` off `size` items.  (For `size = 0` and a non-empty
queue the JS loop does not terminate; under the contract `batches >= 1` a
zero batch size forces an empty queue, where the loop yields no chunk.) -/
def batchQueueGo : Nat → List α → Nat → List (List α)
  | _, [], _ => []
  | _, _ :: _, 0 => []
  | 0, _ :: _, _ + 1 => []
  | f + 1, x :: xs, n + 1 => (x :: xs.take n) :: batchQueueGo f (xs.drop n) (n + 1)

/-- The chunking of `doInBatches`: contiguous chunks of `size` items. -/
def batchQueue (q : List α) (size : Nat) : List (List α) :=
  batchQueueGo q.length q size

/-- Model of `doInBatches`: `batchSize = Math.ceil(queue.length / batches)`,
cut the queue into contiguous chunks of that size, hand each chunk and its
batch index to `getWork`, and concatenate the per-chunk result arrays in
order. -/
def doInBatches (queue : List α) (batches : Nat)
    (getWork : List α → Nat → List β) : List β :=
  let batchSize := (queue.length + batches - 1) / batches
  let batchedQueue := batchQueue queue batchSize
  (batchedQueue.mapIdx (fun i c => getWork c i)).flatten

/-! ## Change classifier (`computeChanges` in `node/lib/util/open.js`)

The repository reads performed by `computeChanges` are modelled as explicit
inputs: the HEAD tree and merge-base tree restricted to the touched paths
(association lists from path to tree entry, the merge-base tree optional),
the `SubmoduleChange` map produced by `getSubmoduleChanges` for the target
commit, and the URL map of the target commit's `.gitmodules`. -/

/-- Git tree-entry file modes (`NodeGit.TreeEntry.FILEMODE`); the
classifier only distinguishes `COMMIT` from the rest. -/
inductive Filemode where
  | COMMIT
  | BLOB
  | EXECUTABLE
  | LINK
  | TREE
deriving DecidableEq, Repr

/-- A git tree entry: file mode and sha. -/
structure TreeEntry where
  filemode : Filemode
  sha : Str
deriving DecidableEq, Repr

/-- How one commit's diff altered a sub-repo pointer (`SubmoduleChange`):
`none` means the pointer did not exist on that side. -/
structure SubmoduleChange where
  oldSha : Option Str
  newSha : Option Str
deriving DecidableEq, Repr

/-- A `Submodule` value staged by a simple change: the URL found for the
path in the target commit's `.gitmodules` (absent lookups store the missing
value) and the sha to set. -/
structure Submodule where
  url : Option Str
  sha : Option Str
deriving DecidableEq, Repr

/-- One side of a three-way conflict index entry (`ConflictUtil`). -/
structure ConflictEntry where
  filemode : Filemode
  sha : Str
deriving DecidableEq, Repr

/-- A three-way conflict: ancestor (merge base), ours (HEAD), theirs
(incoming commit). -/
structure Conflict where
  ancestor : Option ConflictEntry
  ours : Option ConflictEntry
  theirs : Option ConflictEntry
deriving DecidableEq, Repr

/-- `getTreeEntry`: entry of `path` in the optional `tree`, or `none` when
the tree is `null` or has no such entry. -/
def getTreeEntry (tree : Option (List (Str × TreeEntry))) (path : Str) :
    Option TreeEntry :=
  match tree with
  | none => none
  | some t => lookupStr path t

/-- The `makeConflict` closure of `computeChanges`: ancestor from the
merge-base entry, ours from the HEAD entry, theirs a gitlink pointing at
the incoming new sha. -/
def makeConflict (baseEntry headEntry : Option TreeEntry)
    (newSha : Option Str) : Conflict :=
  ⟨baseEntry.map (fun e => ⟨e.filemode, e.sha⟩),
   headEntry.map (fun e => ⟨e.filemode, e.sha⟩),
   newSha.map (fun sha => ⟨.COMMIT, sha⟩)⟩

/-- Outcome of the classifier body for one path: no-op, an entry for
`simpleChanges`, an entry for `changes` (recursive replay), or an entry for
`conflicts`. -/
inductive SubOutcome where
  | nothing
  | simple (sub : Option Submodule)
  | change (c : SubmoduleChange)
  | conflict (c : Conflict)
deriving DecidableEq, Repr

/-- The body of the `computeChanges` per-path loop, deciding the fate of
one touched sub-repo path. -/
def classifySub (headTree : List (Str × TreeEntry))
    (baseTree : Option (List (Str × TreeEntry))) (urls : List (Str × Str))
    (sub : Str) (change : SubmoduleChange) : SubOutcome :=
  let headEntry := getTreeEntry (some headTree) sub
  let mk := makeConflict (getTreeEntry baseTree sub) headEntry change.newSha
  match headEntry with
  | none =>
    -- If doesn't exist on HEAD, only valid change is an addition; ignore a
    -- removal.
    match change.oldSha with
    | none => .simple (some ⟨lookupStr sub urls, change.newSha⟩)
    | some _ => if change.newSha ≠ none then .conflict mk else .nothing
  | some he =>
    if he.filemode ≠ .COMMIT then .conflict mk
    else
      match change.oldSha with
      | none => if change.newSha = some he.sha then .nothing else .conflict mk
      | some old =>
        match change.newSha with
        | none => if he.sha = old then .simple none else .conflict mk
        | some nw =>
          if nw = he.sha then .nothing
          else if old = he.sha then .simple (some ⟨lookupStr sub urls, some nw⟩)
          else .change change

/-- Result of `computeChanges`: the three maps, in insertion order. -/
structure ChangesResult where
  changes : List (Str × SubmoduleChange)
  simpleChanges : List (Str × Option Submodule)
  conflicts : List (Str × Conflict)
deriving DecidableEq, Repr

/-- One iteration of the `computeChanges` loop: record the outcome for the
path in the corresponding map. -/
def computeChangesStep (headTree : List (Str × TreeEntry))
    (baseTree : Option (List (Str × TreeEntry))) (urls : List (Str × Str))
    (acc : ChangesResult) (p : Str × SubmoduleChange) : ChangesResult :=
  match classifySub headTree baseTree urls p.1 p.2 with
  | .nothing => acc
  | .simple s => { acc with simpleChanges := acc.simpleChanges ++ [(p.1, s)] }
  | .change c => { acc with changes := acc.changes ++ [(p.1, c)] }
  | .conflict c => { acc with conflicts := acc.conflicts ++ [(p.1, c)] }

/-- `computeChanges` over all touched paths.  (The JS maps the paths
concurrently, but each iteration writes only its own key, so insertion
order is the queue order.) -/
def computeChanges (headTree : List (Str × TreeEntry))
    (baseTree : Option (List (Str × TreeEntry))) (urls : List (Str × Str))
    (subChanges : List (Str × SubmoduleChange)) : ChangesResult :=
  subChanges.foldl (computeChangesStep headTree baseTree urls) ⟨[], [], []⟩

/-! ## Recursive picker, conflict renderer, and `cherryPick` -/

/-- Outcome of `RebaseUtil.rewriteCommits` for one sub-repo (an external
collaborator): the map from rewritten to original commit ids, and the
commit at which the rewrite stopped on a conflict, if any. -/
structure RewriteResult where
  commits : List (Str × Str)
  conflictedCommit : Option Str
deriving DecidableEq, Repr

/-- Result of `pickSubs`: per sub-repo commit maps and conflict markers. -/
structure PicksResult where
  commits : List (Str × List (Str × Str))
  conflicts : List (Str × Str)
deriving DecidableEq, Repr

/-- `pickSubs`: for every sub-repo in `subs`, run the rewrite primitive,
record its commit map unconditionally, and record a conflict entry when the
rewrite stopped at a conflicted commit.  (The items run through
`doInParallel`, but each touches only its own keys, so the maps do not
depend on the schedule.) -/
def pickSubs (rewrite : Str → RewriteResult)
    (subs : List (Str × SubmoduleChange)) : PicksResult :=
  subs.foldl
    (fun acc p =>
      let rr := rewrite p.1
      { commits := acc.commits ++ [(p.1, rr.commits)],
        conflicts := acc.conflicts ++
          (match rr.conflictedCommit with
           | some c => [(p.1, c)]
           | none => []) })
    ⟨[], []⟩

/-- JS default string comparison, `a <= b` lexicographically by code
unit (the ordering `Array.prototype.sort` uses for strings). -/
def strLe : Str → Str → Bool
  | [], _ => true
  | _ :: _, [] => false
  | c :: cs, d :: ds => if c = d then strLe cs ds else decide (c < d)

/-- Sorted insertion for `sortStrs`. -/
def insertStr (x : Str) : List Str → List Str
  | [] => [x]
  | y :: rest => if strLe x y then x :: y :: rest else y :: insertStr x rest

/-- Model of `Array.prototype.sort` on an array of strings. -/
def sortStrs : List Str → List Str
  | [] => []
  | x :: rest => insertStr x (sortStrs rest)

/-- `colors.red`: ANSI color wrapping, display-only. -/
def colorsRed (s : Str) : Str :=
  "\x1b[31m".toList ++ s ++ "\x1b[39m".toList

/-- `writeConflicts`: add each conflict to the index (an effect recorded by
the caller's log) and build the aggregated error message, one line per
conflicted submodule, in sorted name order; empty when there is no
conflict. -/
def writeConflicts (conflicts : List (Str × Conflict)) : Str :=
  (sortStrs (conflicts.map (·.1))).foldl
    (fun msg name =>
      msg ++ ("Conflicting entries for submodule ".toList ++ colorsRed name
          ++ ['\n']))
    []

/-- Inputs of one `cherryPick` run and the behaviour of its external
collaborators: status of the repository, the foreign commit's data, the
tree/diff inputs of `computeChanges`, and the per-sub-repo outcome of the
rewrite primitive.

`sequencerInProgress` models the `ensureReady` check performed through
`StatusUtil` (whose source lies outside the embedded files); per the
specification, starting a sequenced operation while one is recorded is
rejected before anything else. -/
structure CherryPickEnv where
  sequencerInProgress : Bool
  isDeepClean : Bool
  hasUrlChanges : Bool
  headSha : Str
  commitSha : Str
  commitAuthor : Str
  commitCommitter : Str
  commitMessage : Str
  defaultSignature : Str
  newCommitSha : Str
  headTree : List (Str × TreeEntry)
  baseTree : Option (List (Str × TreeEntry))
  urls : List (Str × Str)
  subChanges : List (Str × SubmoduleChange)
  rewrite : Str → RewriteResult

/-- Observable repository effects of a `cherryPick` run, in order. -/
inductive Action where
  | writeSeq (state : SequencerState)
  | changeSubs (edits : List (Str × Option Submodule))
  | writeConflictEntries (names : List Str)
  | pickSub (name : Str)
  | writeIndex
  | createCommit (parent : Str) (author : Str) (committer : Str)
                 (message : Str)
  | cleanSeq
deriving DecidableEq, Repr

/-- Is this effect the creation of a commit? -/
def Action.isCreateCommit : Action → Bool
  | .createCommit _ _ _ _ => true
  | _ => false

/-- Does this effect create a commit with the given author signature? -/
def Action.createsWithAuthor : Action → Str → Bool
  | .createCommit _ au _ _, author => au = author
  | _, _ => false

/-- Result object of `cherryPick`. -/
structure CherryPickResult where
  newMetaCommit : Option Str
  submoduleCommits : List (Str × List (Str × Str))
  errorMessage : Option Str
deriving DecidableEq, Repr

/-- `finish`: create the meta commit on HEAD — `createCommitOnHead([],
defaultSig, commit.committer(), commit.message())`, so the author is the
repository's *default signature* while committer and message come from the
foreign commit — then clean the sequencer state; return the new sha. -/
def finish (env : CherryPickEnv) : Str × List Action :=
  (env.newCommitSha,
   [.createCommit env.headSha env.defaultSignature env.commitCommitter
      env.commitMessage,
    .cleanSeq])

/-- `cherryPick`: validate, write the sequencer record, apply simple
changes, render conflicts, run the sub-repo picks, and either finish with a
meta commit, fail with "Nothing to commit.", or return the aggregated
conflict report leaving the sequencer in place.  The first component models
the return value (`Except.error` a thrown `UserError`); the second is the
ordered log of repository effects. -/
def cherryPick (env : CherryPickEnv) :
    Except Str CherryPickResult × List Action :=
  if env.sequencerInProgress then
    (.error "Another operation is in progress.".toList, [])
  else if !env.isDeepClean then
    (.error "The repository has uncommitted changes.".toList, [])
  else if env.hasUrlChanges then
    (.error "Cherry-picking commits with submodule URL changes is not currently supported.".toList,
     [])
  else
    let changes := computeChanges env.headTree env.baseTree env.urls
                                  env.subChanges
    let seq : SequencerState :=
      ⟨.CHERRY_PICK, ⟨env.headSha, none⟩, ⟨env.commitSha, none⟩,
       [env.commitSha], 0⟩
    let picks := pickSubs env.rewrite changes.changes
    let pickConflictNames := sortStrs (picks.conflicts.map (·.1))
    let errorMessage := writeConflicts changes.conflicts ++
      pickConflictNames.foldl
        (fun msg name =>
          msg ++ ("Submodule ".toList ++ colorsRed name
              ++ " is conflicted.\n".toList))
        []
    let log := [.writeSeq seq, .changeSubs changes.simpleChanges,
                .writeConflictEntries (sortStrs (changes.conflicts.map (·.1)))]
               ++ changes.changes.map (fun p => Action.pickSub p.1)
               ++ [.writeIndex]
    if errorMessage = [] then
      if changes.simpleChanges = [] ∧ picks.commits = [] then
        (.error "Nothing to commit.".toList, log ++ [.cleanSeq])
      else
        let fin := finish env
        (.ok ⟨some fin.1, picks.commits, none⟩, log ++ fin.2)
    else
      (.ok ⟨none, picks.commits, some errorMessage⟩, log)

/-- A concrete, fully clean cherry-pick environment used as a witness: the
target commit purely adds submodule `s` (no conflict, no recursive pick),
and the foreign commit's author (`alice`) differs from the repository's
default signature (`bob`). -/
def sampleCleanEnv : CherryPickEnv where
  sequencerInProgress := false
  isDeepClean := true
  hasUrlChanges := false
  headSha := "h".toList
  commitSha := "t".toList
  commitAuthor := "alice".toList
  commitCommitter := "carol".toList
  commitMessage := "m".toList
  defaultSignature := "bob".toList
  newCommitSha := "n".toList
  headTree := []
  baseTree := none
  urls := [("s".toList, "u".toList)]
  subChanges := [("s".toList, ⟨none, some "2".toList⟩)]
  rewrite := fun _ => ⟨[], none⟩

/-- A concrete cherry-pick environment whose classification conflicts: the
touched path `s` exists in HEAD as a plain file, not a submodule pointer. -/
def sampleConflictEnv : CherryPickEnv where
  sequencerInProgress := false
  isDeepClean := true
  hasUrlChanges := false
  headSha := "h".toList
  commitSha := "t".toList
  commitAuthor := "alice".toList
  commitCommitter := "carol".toList
  commitMessage := "m".toList
  defaultSignature := "bob".toList
  newCommitSha := "n".toList
  headTree := [("s".toList, ⟨Filemode.BLOB, "x".toList⟩)]
  baseTree := none
  urls := [("s".toList, "u".toList)]
  subChanges := [("s".toList, ⟨some "1".toList, some "2".toList⟩)]
  rewrite := fun _ => ⟨[], none⟩

/-! ## `.gitmodules` parsing (`parseSubmoduleConfig`) -/

/-- Greedy tail `(.*)"]` of the submodule-name regex: the capture runs to
the *last* occurrence of `"]`; fails when there is none. -/
def captureToLastQuoteBracket : Str → Option Str
  | [] => none
  | c :: rest =>
    match captureToLastQuoteBracket rest with
    | some tail => some (c :: tail)
    | none => if c = '"' ∧ rest.head? = some ']' then some [] else none

/-- Match of `/\[submodule *"(.*)"]/` anchored at the current position:
the literal `[submodule`, any number of spaces, an opening quote, then the
greedy capture. -/
def matchSubmoduleHeaderAt (cs : Str) : Option Str :=
  if cs.take 10 = "[submodule".toList then
    match (cs.drop 10).dropWhile (· = ' ') with
    | '"' :: rest => captureToLastQuoteBracket rest
    | _ => none
  else none

/-- `nameRe.exec(line)`: try the unanchored pattern at each position, left
to right, and return the first capture. -/
def execSubmoduleHeader : Str → Option Str
  | [] => none
  | c :: rest =>
    match matchSubmoduleHeaderAt (c :: rest) with
    | some n => some n
    | none => execSubmoduleHeader rest

/-- `urlRe.exec(line)` for `/^[ \t]*url = (.*)$/`: strip leading spaces and
tabs, require the literal `url = `, capture the rest of the line. -/
def execUrlLine (cs : Str) : Option Str :=
  let rest := cs.dropWhile (fun c => c = ' ' || c = '\t')
  if rest.take 6 = "url = ".toList then some (rest.drop 6) else none

/-- Loop of `parseSubmoduleConfig`: `lastName` is the most recently seen
header name, `acc` the result map built so far. -/
def parseSubmoduleConfigGo :
    List Str → Option Str → (Str → Option Str) → Str → Option Str
  | [], _, acc => acc
  | line :: rest, lastName, acc =>
    match execSubmoduleHeader line with
    | some n => parseSubmoduleConfigGo rest (some n) acc
    | none =>
      match lastName with
      | some nm =>
        match execUrlLine line with
        | some u =>
          parseSubmoduleConfigGo rest lastName
            (fun x => if x = nm then some u else acc x)
        | none => parseSubmoduleConfigGo rest lastName acc
      | none => parseSubmoduleConfigGo rest lastName acc

/-- `parseSubmoduleConfig`: map from submodule name to URL parsed from the
text, modelled as a lookup function. -/
def parseSubmoduleConfig (text : Str) : Str → Option Str :=
  parseSubmoduleConfigGo (jsSplit '\n' text) none (fun _ => none)

/-- Declarative reading of the parser, used to state its correctness: the
URL for `name` is the capture of the last `url = ` line whose governing
header (the most recently seen header line before it, tracked in `last`)
names `name`; later records win over earlier ones. -/
def lastUrlFor (last : Option Str) (lines : List Str) (name : Str) :
    Option Str :=
  match lines with
  | [] => none
  | line :: rest =>
    match execSubmoduleHeader line with
    | some n => lastUrlFor (some n) rest name
    | none =>
      match last, execUrlLine line with
      | some k, some u =>
        match lastUrlFor last rest name with
        | some u2 => some u2
        | none => if name = k then some u else none
      | _, _ => lastUrlFor last rest name

/-! ## Helper lemmas -/

theorem jsSplit_ne_nil (sep : Char) (s : Str) : jsSplit sep s ≠ [] := by
  cases s with
  | nil => simp [jsSplit]
  | cons c rest =>
    simp only [jsSplit]
    split
    · simp
    · split <;> simp

/-- Splitting a separator-free string yields the single piece. -/
theorem jsSplit_of_not_mem {sep : Char} {s : Str} (h : sep ∉ s) :
    jsSplit sep s = [s] := by
  induction s with
  | nil => rfl
  | cons c rest ih =>
    simp only [List.mem_cons, not_or] at h
    simp only [jsSplit, if_neg (Ne.symm h.1)]
    rw [ih h.2]

/-- Splitting `a ++ sep :: b` when `a` is separator-free peels off `a`. -/
theorem jsSplit_append_sep {sep : Char} {a : Str} (b : Str) (h : sep ∉ a) :
    jsSplit sep (a ++ sep :: b) = a :: jsSplit sep b := by
  induction a with
  | nil => simp [jsSplit]
  | cons c rest ih =>
    simp only [List.mem_cons, not_or] at h
    simp only [List.cons_append, jsSplit, if_neg (Ne.symm h.1)]
    rw [show rest.append (sep :: b) = rest ++ sep :: b from rfl, ih h.2]

/-! ## JS number parsing and rendering

`Number.parseInt` (with no explicit radix) skips leading whitespace, accepts
an optional sign, switches to hexadecimal on a `0x`/`0X` prefix, consumes the
longest prefix of digits, and yields `NaN` (here `none`) when no digit was
consumed.  Trailing garbage is ignored. -/

/-- Numeric value of a decimal digit list, accumulated left to right. -/

theorem digitChar_isDigit {n : Nat} : (digitChar n).isDigit = true := by
  unfold digitChar
  split <;> decide

theorem digitChar_toNat {n : Nat} (h : n < 10) :
    (digitChar n).toNat - '0'.toNat = n := by
  rcases n with _|_|_|_|_|_|_|_|_|_|m
  iterate 10 rfl
  exact absurd h (by omega)

theorem renderNatGo_congr :
    ∀ {f g n : Nat}, n ≤ f → n ≤ g → renderNatGo f n = renderNatGo g n := by
  intro f
  induction f with
  | zero =>
    intro g n hf _
    interval_cases n
    cases g <;> rfl
  | succ f ih =>
    intro g n hf hg
    cases n with
    | zero => cases g <;> rfl
    | succ m =>
      cases g with
      | zero => omega
      | succ g =>
        show (if m + 1 < 10 then [digitChar (m + 1)]
              else renderNatGo f ((m + 1) / 10) ++ [digitChar ((m + 1) % 10)]) =
             (if m + 1 < 10 then [digitChar (m + 1)]
              else renderNatGo g ((m + 1) / 10) ++ [digitChar ((m + 1) % 10)])
        split
        · rfl
        · rename_i hlt
          rw [ih (g := g) (n := (m + 1) / 10) (by omega) (by omega)]

/-- The defining recurrence of `renderNat`. -/
theorem renderNat_eq (n : Nat) :
    renderNat n = if n < 10 then [digitChar n]
                  else renderNat (n / 10) ++ [digitChar (n % 10)] := by
  cases n with
  | zero => rfl
  | succ m =>
    show renderNatGo (m + 1) (m + 1) = _
    show (if m + 1 < 10 then [digitChar (m + 1)]
          else renderNatGo m ((m + 1) / 10) ++ [digitChar ((m + 1) % 10)]) = _
    split
    · rfl
    · rw [renderNatGo_congr (f := m) (g := (m + 1) / 10) (by omega) le_rfl]
      rfl

theorem renderNat_ne_nil (n : Nat) : renderNat n ≠ [] := by
  rw [renderNat_eq]
  split <;> simp

theorem mem_renderNat_isDigit (n : Nat) : ∀ c ∈ renderNat n, c.isDigit = true := by
  induction n using Nat.strong_induction_on with
  | _ n ih =>
    rw [renderNat_eq]
    split
    · simp [digitChar_isDigit]
    · intro c hc
      rcases List.mem_append.1 hc with h | h
      · exact ih (n / 10) (Nat.div_lt_self (by omega) (by omega)) c h
      · simp only [List.mem_singleton] at h
        subst h
        exact digitChar_isDigit

theorem digitsVal_nil (acc : Nat) : digitsVal acc [] = acc := rfl

theorem digitsVal_cons (acc : Nat) (c : Char) (rest : Str) :
    digitsVal acc (c :: rest) = digitsVal (acc * 10 + (c.toNat - '0'.toNat)) rest :=
  rfl

theorem digitsVal_append (acc : Nat) (a b : Str) :
    digitsVal acc (a ++ b) = digitsVal (digitsVal acc a) b := by
  induction a generalizing acc with
  | nil => rfl
  | cons c rest ih => simp only [List.cons_append, digitsVal_cons, ih]

theorem digitsVal_renderNat (acc n : Nat) :
    digitsVal acc (renderNat n) = acc * 10 ^ (renderNat n).length + n := by
  induction n using Nat.strong_induction_on generalizing acc with
  | _ n ih =>
    rw [renderNat_eq]
    split
    · rename_i h
      simp only [digitsVal_cons, digitsVal_nil, List.length_singleton, pow_one]
      have := digitChar_toNat h
      omega
    · rename_i h
      rw [digitsVal_append, ih (n / 10) (Nat.div_lt_self (by omega) (by omega)),
          List.length_append]
      simp only [digitsVal_cons, digitsVal_nil, List.length_singleton]
      rw [digitChar_toNat (Nat.mod_lt _ (by omega))]
      rw [Nat.add_mul, pow_succ]
      ring_nf
      omega

theorem isDigit_not_isWhitespace {c : Char} (h : c.isDigit = true) :
    c.isWhitespace = false := by
  by_contra hw
  rw [Bool.not_eq_false] at hw
  simp only [Char.isWhitespace, Bool.or_eq_true, decide_eq_true_eq] at hw
  rcases hw with ((rfl | rfl) | rfl) | rfl <;> exact absurd h (by decide)

theorem isDigit_ne {c d : Char} (h : c.isDigit = true) (hd : d.isDigit = false) :
    c ≠ d := by
  intro h'
  subst h'
  rw [h] at hd
  exact absurd hd (by decide)

/-- `parseInt` on a non-empty all-decimal-digit string yields its value. -/
theorem parseInt_all_digits (cs : Str) (h0 : cs ≠ [])
    (hd : ∀ c ∈ cs, c.isDigit = true) :
    parseInt cs = some ((digitsVal 0 cs : Nat) : Int) := by
  obtain ⟨c, rest, rfl⟩ := List.exists_cons_of_ne_nil h0
  have hc : c.isDigit = true := hd c (List.mem_cons_self _ _)
  have hdrop : (c :: rest).dropWhile Char.isWhitespace = c :: rest := by
    simp [List.dropWhile_cons, isDigit_not_isWhitespace hc]
  have hhead : (c :: rest).head? = some c := rfl
  have hnminus : ¬((c :: rest).head? = some '-' ∨ (c :: rest).head? = some '+') := by
    simp only [hhead, Option.some_inj, not_or]
    exact ⟨isDigit_ne hc (by decide), isDigit_ne hc (by decide)⟩
  have hnhex : ¬((c :: rest).head? = some '0' ∧
      ((c :: rest).tail.head? = some 'x' ∨ (c :: rest).tail.head? = some 'X')) := by
    rintro ⟨-, hx | hx⟩
    · have : 'x' ∈ c :: rest :=
        List.mem_cons_of_mem _ (List.mem_of_mem_head? hx)
      exact absurd (hd _ this) (by decide)
    · have : 'X' ∈ c :: rest :=
        List.mem_cons_of_mem _ (List.mem_of_mem_head? hx)
      exact absurd (hd _ this) (by decide)
  have htake : (c :: rest).takeWhile Char.isDigit = c :: rest := by
    rw [List.takeWhile_eq_self_iff]
    exact fun a ha => hd a ha
  have hne : ¬(c :: rest).head? = some '-' := by
    simp only [hhead, Option.some_inj]
    exact isDigit_ne hc (by decide)
  simp only [parseInt, hdrop, if_neg hnminus, if_neg hnhex, htake,
    if_neg (show ¬(c :: rest) = [] from by simp), if_neg hne]

/-- `parseInt` inverts decimal rendering of a natural number. -/
theorem parseInt_renderNat (n : Nat) : parseInt (renderNat n) = some (n : Int) := by
  rw [parseInt_all_digits (renderNat n) (renderNat_ne_nil n) (mem_renderNat_isDigit n)]
  rw [digitsVal_renderNat]
  simp

/-- `parseInt` inverts `renderInt` on non-negative integers. -/
theorem parseInt_renderInt {i : Int} (h : 0 ≤ i) :
    parseInt (renderInt i) = some i := by
  rw [renderInt, if_neg (by omega)]
  rw [parseInt_renderNat]
  congr 1
  omega

/-- Joining then splitting recovers the pieces, provided the list is
non-empty and no piece contains the separator. -/
theorem jsSplit_jsJoin {sep : Char} {l : List Str} (h0 : l ≠ [])
    (h : ∀ s ∈ l, sep ∉ s) : jsSplit sep (jsJoin sep l) = l := by
  induction l with
  | nil => exact absurd rfl h0
  | cons x rest ih =>
    cases rest with
    | nil => exact jsSplit_of_not_mem (h x (List.mem_cons_self _ _))
    | cons y rest' =>
      rw [jsJoin, jsSplit_append_sep _ (h x (List.mem_cons_self _ _))]
      rw [ih (by simp) (fun s hs => h s (List.mem_cons_of_mem _ hs))]

/-! ## Round-trip lemmas for the sequencer store -/

theorem parseSeqType_seqTypeStr (t : SeqType) :
    parseSeqType (seqTypeStr t) = some t := by
  cases t <;> rfl

theorem seqTypeStr_no_newline (t : SeqType) : '\n' ∉ seqTypeStr t := by
  cases t <;> decide

theorem renderNat_no_newline (n : Nat) : '\n' ∉ renderNat n := by
  intro h
  exact absurd (mem_renderNat_isDigit n _ h) (by decide)

theorem renderInt_no_newline {i : Int} (h : 0 ≤ i) : '\n' ∉ renderInt i := by
  rw [renderInt, if_neg (by omega)]
  exact renderNat_no_newline _

/-- Reading back a rendered `CommitAndRef` recovers it, provided neither
the sha nor the ref contains a newline. -/
theorem readCommitAndRef_render (c : CommitAndRef) (hsha : '\n' ∉ c.sha)
    (href : ∀ r, c.ref = some r → '\n' ∉ r) :
    readCommitAndRef (some (renderCommitAndRef c)) = some c := by
  obtain ⟨sha, ref⟩ := c
  simp only at hsha
  cases ref with
  | none =>
    have hsplit : jsSplit '\n' (sha ++ '\n' :: []) = [sha, []] := by
      rw [jsSplit_append_sep [] hsha]
      rfl
    simp [readCommitAndRef, renderCommitAndRef, hsplit]
  | some r =>
    have hr : '\n' ∉ r := href r rfl
    have hsplit : jsSplit '\n' (sha ++ '\n' :: (r ++ ['\n'])) = [sha, r, []] := by
      rw [jsSplit_append_sep _ hsha, jsSplit_append_sep [] hr]
      rfl
    simp [readCommitAndRef, renderCommitAndRef, hsplit]

/-- Reading back a rendered COMMITS file recovers the commit list, provided
it is non-empty and each id is non-empty and newline-free. -/
theorem readCommits_render (commits : List Str) (h0 : commits ≠ [])
    (h : ∀ c_ ∈ commits, c_ ≠ [] ∧ '\n' ∉ c_) :
    readCommits (some (jsJoin '\n' commits)) = some commits := by
  have hsplit : jsSplit '\n' (jsJoin '\n' commits) = commits :=
    jsSplit_jsJoin h0 (fun s hs => (h s hs).2)
  have hfilter : commits.filter (fun l => 0 < l.length) = commits := by
    rw [List.filter_eq_self]
    intro a ha
    have := (h a ha).1
    simp only [decide_eq_true_eq]
    cases a with
    | nil => exact absurd rfl this
    | cons x xs => simp
  simp [readCommits, hsplit, hfilter, h0]

/-- Reading back a rendered CURRENT_COMMIT file recovers the index when it
is non-negative and below `numCommits`. -/
theorem readCurrentCommit_render {cc : Int} (numCommits : Nat) (h0 : 0 ≤ cc)
    (hlt : cc < (numCommits : Int)) :
    readCurrentCommit (some (renderInt cc)) numCommits = some cc := by
  have hsplit : jsSplit '\n' (renderInt cc) = [renderInt cc] :=
    jsSplit_of_not_mem (renderInt_no_newline h0)
  simp [readCurrentCommit, hsplit, parseInt_renderInt h0, hlt]

/-! ## Claims about the sequencer store -/

/-- Claim C4, as stated, is false: the round-trip
`readSequencerState ∘ writeSequencerState` does not return a deep-equal
state for *every* non-empty commit list.  Witness: a single commit id
containing a newline is written as two lines of the COMMITS file and read
back as two ids. -/
theorem sequencer_roundtrip_counterexample :
    readSequencerState (writeSequencerState
      ⟨.CHERRY_PICK, ⟨"h".toList, none⟩, ⟨"t".toList, none⟩,
       ["a\nb".toList], 0⟩) ≠
    Except.ok (some ⟨.CHERRY_PICK, ⟨"h".toList, none⟩, ⟨"t".toList, none⟩,
       ["a\nb".toList], 0⟩) := by
  decide

/-- Claim C4 (amended): for every `SequencerState` — every `type`, both
`ref` variants of `originalHead` and `target`, every commit list and every
in-range `currentCommit` — *provided* no sha, ref, or commit id contains a
newline and every commit id is non-empty, `writeSequencerState` followed by
`readSequencerState` returns a state deep-equal to the one written. -/
theorem sequencer_write_read_roundtrip (st : SequencerState)
    (hcc0 : 0 ≤ st.currentCommit)
    (hcc1 : st.currentCommit < (st.commits.length : Int))
    (hsha : '\n' ∉ st.originalHead.sha)
    (href : ∀ r, st.originalHead.ref = some r → '\n' ∉ r)
    (htsha : '\n' ∉ st.target.sha)
    (htref : ∀ r, st.target.ref = some r → '\n' ∉ r)
    (hcom : ∀ c_ ∈ st.commits, c_ ≠ [] ∧ '\n' ∉ c_) :
    readSequencerState (writeSequencerState st) = .ok (some st) := by
  have h0 : st.commits ≠ [] := by
    intro h
    rw [h] at hcc1
    simp only [List.length_nil, Nat.cast_zero] at hcc1
    omega
  have htype : jsSplit '\n' (seqTypeStr st.type ++ ['\n']) =
      [seqTypeStr st.type, []] := by
    rw [show ['\n'] = '\n' :: [] from rfl,
        jsSplit_append_sep [] (seqTypeStr_no_newline st.type)]
    rfl
  unfold readSequencerState writeSequencerState
  simp only [htype, readCommitAndRef_render st.originalHead hsha href,
    readCommitAndRef_render st.target htsha htref,
    readCommits_render st.commits h0 hcom,
    readCurrentCommit_render st.commits.length hcc0 hcc1,
    parseSeqType_seqTypeStr, List.length_cons, List.length_nil, List.getD,
    mkSequencerState]
  simp [hcc0, hcc1, parseSeqType_seqTypeStr]
  rfl

/-- Witness for the amended claim C4 at a concrete state (a rebase with a
named original-head ref and two commits, current index 1). -/
theorem sequencer_write_read_roundtrip_witness :
    readSequencerState (writeSequencerState
      ⟨.REBASE, ⟨"aaa".toList, some "refs/heads/master".toList⟩,
       ⟨"bbb".toList, none⟩, ["c1".toList, "c2".toList], 1⟩) =
    Except.ok (some ⟨.REBASE, ⟨"aaa".toList, some "refs/heads/master".toList⟩,
       ⟨"bbb".toList, none⟩, ["c1".toList, "c2".toList], 1⟩) :=
  sequencer_write_read_roundtrip _ (by decide) (by decide) (by decide)
    (by intro r hr; cases hr; decide) (by decide)
    (by intro r hr; cases hr) (by decide)

/-- Claim C5: `readSequencerState` does return null (`ok none`) for an
absent directory, an unknown type, a missing original-head or target
record, an empty commit list, and an index at or past the end of the
commit list — but for an index *below zero* (CURRENT_COMMIT holding `-1`)
`readCurrentCommit` performs no lower-bound check, the value flows into
the `SequencerState` constructor, and its `assert(0 <= currentCommit)`
*throws* instead of the function returning null.  The final conjunct
evaluates the code at that failing input. -/
theorem readSequencerState_malformed_and_negative_index :
    (readSequencerState SeqDir.absent = .ok none) ∧
    (readSequencerState ⟨some "JUNK\n".toList, some "a\n".toList,
        some "b\n".toList, some "c".toList, some "0".toList⟩ = .ok none) ∧
    (readSequencerState ⟨some "CHERRY_PICK\n".toList, none,
        some "b\n".toList, some "c".toList, some "0".toList⟩ = .ok none) ∧
    (readSequencerState ⟨some "CHERRY_PICK\n".toList, some "a\n".toList,
        none, some "c".toList, some "0".toList⟩ = .ok none) ∧
    (readSequencerState ⟨some "CHERRY_PICK\n".toList, some "a\n".toList,
        some "b\n".toList, some "\n".toList, some "0".toList⟩ = .ok none) ∧
    (readSequencerState ⟨some "CHERRY_PICK\n".toList, some "a\n".toList,
        some "b\n".toList, some "c".toList, some "5".toList⟩ = .ok none) ∧
    (readSequencerState ⟨some "CHERRY_PICK\n".toList, some "a\n".toList,
        some "b\n".toList, some "c".toList, some "-1".toList⟩ =
     .error "assertion failed in SequencerState constructor".toList) := by
  refine ⟨by decide, by decide, by decide, by decide, by decide, by decide,
    by decide⟩

/-! ## Lemmas about the change classifier -/

theorem lookupStr_append (key : Str) (a b : List (Str × β)) :
    lookupStr key (a ++ b) =
      (match lookupStr key a with
       | some v => some v
       | none => lookupStr key b) := by
  induction a with
  | nil => rfl
  | cons p rest ih =>
    obtain ⟨k, v⟩ := p
    by_cases h : k = key
    · simp [lookupStr, h]
    · simp [lookupStr, h, ih]

theorem lookupStr_append_single_ne {key k : Str} (v : β)
    (h : k ≠ key) (a : List (Str × β)) :
    lookupStr key (a ++ [(k, v)]) = lookupStr key a := by
  rw [lookupStr_append]
  cases hx : lookupStr key a with
  | none => simp [lookupStr, h]
  | some w => rfl

theorem lookupStr_append_single_eq {key : Str} (v : β)
    (a : List (Str × β)) (h : lookupStr key a = none) :
    lookupStr key (a ++ [(key, v)]) = some v := by
  rw [lookupStr_append, h]
  simp [lookupStr]

/-- Folding `computeChangesStep` over entries whose keys all differ from
`sub` does not affect any lookup at `sub`. -/
theorem computeChanges_foldl_lookup_of_not_mem
    (headTree : List (Str × TreeEntry))
    (baseTree : Option (List (Str × TreeEntry))) (urls : List (Str × Str))
    (l : List (Str × SubmoduleChange)) (acc : ChangesResult) (sub : Str)
    (h : sub ∉ l.map Prod.fst) :
    lookupStr sub (l.foldl (computeChangesStep headTree baseTree urls)
        acc).changes = lookupStr sub acc.changes ∧
    lookupStr sub (l.foldl (computeChangesStep headTree baseTree urls)
        acc).simpleChanges = lookupStr sub acc.simpleChanges ∧
    lookupStr sub (l.foldl (computeChangesStep headTree baseTree urls)
        acc).conflicts = lookupStr sub acc.conflicts := by
  induction l generalizing acc with
  | nil => exact ⟨rfl, rfl, rfl⟩
  | cons p rest ih =>
    obtain ⟨k, ch⟩ := p
    simp only [List.map_cons, List.mem_cons, not_or] at h
    obtain ⟨hk, hrest⟩ := h
    have hk' : k ≠ sub := fun he => hk he.symm
    have step_eq :
        lookupStr sub (computeChangesStep headTree baseTree urls acc
            (k, ch)).changes = lookupStr sub acc.changes ∧
        lookupStr sub (computeChangesStep headTree baseTree urls acc
            (k, ch)).simpleChanges = lookupStr sub acc.simpleChanges ∧
        lookupStr sub (computeChangesStep headTree baseTree urls acc
            (k, ch)).conflicts = lookupStr sub acc.conflicts := by
      unfold computeChangesStep
      cases classifySub headTree baseTree urls k ch <;>
        simp [lookupStr_append_single_ne _ hk']
    have := ih (computeChangesStep headTree baseTree urls acc (k, ch)) hrest
    simp only [List.foldl_cons]
    exact ⟨this.1.trans step_eq.1, this.2.1.trans step_eq.2.1,
           this.2.2.trans step_eq.2.2⟩

/-- Lookup characterisation of `computeChanges`: with distinct path keys,
the maps hold, at a path, exactly what the classifier decided for that
path's change. -/
theorem computeChanges_foldl_lookup
    (headTree : List (Str × TreeEntry))
    (baseTree : Option (List (Str × TreeEntry))) (urls : List (Str × Str))
    (l : List (Str × SubmoduleChange)) (acc : ChangesResult) (sub : Str)
    (change : SubmoduleChange)
    (hnodup : (l.map Prod.fst).Nodup)
    (hl : lookupStr sub l = some change)
    (hacc1 : lookupStr sub acc.changes = none)
    (hacc2 : lookupStr sub acc.simpleChanges = none)
    (hacc3 : lookupStr sub acc.conflicts = none) :
    lookupStr sub (l.foldl (computeChangesStep headTree baseTree urls)
        acc).changes =
      (match classifySub headTree baseTree urls sub change with
       | .change c => some c
       | _ => none) ∧
    lookupStr sub (l.foldl (computeChangesStep headTree baseTree urls)
        acc).simpleChanges =
      (match classifySub headTree baseTree urls sub change with
       | .simple s => some s
       | _ => none) ∧
    lookupStr sub (l.foldl (computeChangesStep headTree baseTree urls)
        acc).conflicts =
      (match classifySub headTree baseTree urls sub change with
       | .conflict c => some c
       | _ => none) := by
  induction l generalizing acc with
  | nil => exact absurd hl (by simp [lookupStr])
  | cons p rest ih =>
    obtain ⟨k, ch⟩ := p
    simp only [List.map_cons, List.nodup_cons] at hnodup
    obtain ⟨hknotin, hrestnodup⟩ := hnodup
    by_cases hk : k = sub
    · subst hk
      rw [show lookupStr k ((k, ch) :: rest) = some ch from by
            simp [lookupStr]] at hl
      obtain rfl : ch = change := by injection hl
      simp only [List.foldl_cons]
      have hnotin : k ∉ rest.map Prod.fst := hknotin
      have loc := computeChanges_foldl_lookup_of_not_mem headTree baseTree
        urls rest (computeChangesStep headTree baseTree urls acc (k, ch)) k
        hnotin
      refine ⟨loc.1.trans ?_, loc.2.1.trans ?_, loc.2.2.trans ?_⟩ <;>
      · unfold computeChangesStep
        cases hcl : classifySub headTree baseTree urls k ch <;>
          simp [hcl, hacc1, hacc2, hacc3, lookupStr_append_single_eq]
    · have hk' : k ≠ sub := hk
      rw [show lookupStr sub ((k, ch) :: rest) = lookupStr sub rest from by
            simp [lookupStr, hk']] at hl
      simp only [List.foldl_cons]
      have step_none :
          lookupStr sub (computeChangesStep headTree baseTree urls acc
              (k, ch)).changes = none ∧
          lookupStr sub (computeChangesStep headTree baseTree urls acc
              (k, ch)).simpleChanges = none ∧
          lookupStr sub (computeChangesStep headTree baseTree urls acc
              (k, ch)).conflicts = none := by
        unfold computeChangesStep
        cases classifySub headTree baseTree urls k ch <;>
          simp [lookupStr_append_single_ne _ hk', hacc1, hacc2, hacc3]
      exact ih (computeChangesStep headTree baseTree urls acc (k, ch))
        hrestnodup hl step_none.1 step_none.2.1 step_none.2.2

/-! ## Claims about the change classifier -/

/-- Claim C2: for every target commit whose diff touches a sub-repo path
that exists in HEAD as a submodule pointer (`FILEMODE.COMMIT`), where the
change's `oldSha` and `newSha` are both non-null and HEAD's sha for the
path differs from both, `computeChanges` records the path in `changes`
(recursive replay) and never in `simpleChanges` or `conflicts`. -/
theorem computeChanges_diverged_head_recursive_replay
    (headTree : List (Str × TreeEntry))
    (baseTree : Option (List (Str × TreeEntry))) (urls : List (Str × Str))
    (subChanges : List (Str × SubmoduleChange)) (sub : Str)
    (change : SubmoduleChange) (he : TreeEntry) (o n : Str)
    (hnodup : (subChanges.map Prod.fst).Nodup)
    (hchange : lookupStr sub subChanges = some change)
    (hhead : lookupStr sub headTree = some he)
    (hmode : he.filemode = .COMMIT)
    (hold : change.oldSha = some o)
    (hnew : change.newSha = some n)
    (hdo : he.sha ≠ o)
    (hdn : he.sha ≠ n) :
    lookupStr sub (computeChanges headTree baseTree urls
        subChanges).changes = some change ∧
    lookupStr sub (computeChanges headTree baseTree urls
        subChanges).simpleChanges = none ∧
    lookupStr sub (computeChanges headTree baseTree urls
        subChanges).conflicts = none := by
  have hcl : classifySub headTree baseTree urls sub change = .change change := by
    unfold classifySub
    simp only [getTreeEntry, hhead, hold, hnew, hmode, ne_eq]
    rw [if_neg (by simp), if_neg (fun h => hdn h.symm),
        if_neg (fun h => hdo h.symm)]
  have main := computeChanges_foldl_lookup headTree baseTree urls subChanges
    ⟨[], [], []⟩ sub change hnodup hchange rfl rfl rfl
  rw [hcl] at main
  rw [computeChanges]
  exact ⟨main.1, main.2.1, main.2.2⟩

/-- Witness for claim C2: HEAD has submodule `s` at sha `c`; the incoming
change moves `s` from `a` to `b`; both differ from `c`. -/
theorem computeChanges_diverged_head_recursive_replay_witness :
    lookupStr "s".toList (computeChanges
        [("s".toList, ⟨Filemode.COMMIT, "c".toList⟩)] none []
        [("s".toList, ⟨some "a".toList, some "b".toList⟩)]).changes =
      some ⟨some "a".toList, some "b".toList⟩ ∧
    lookupStr "s".toList (computeChanges
        [("s".toList, ⟨Filemode.COMMIT, "c".toList⟩)] none []
        [("s".toList, ⟨some "a".toList, some "b".toList⟩)]).simpleChanges =
      none ∧
    lookupStr "s".toList (computeChanges
        [("s".toList, ⟨Filemode.COMMIT, "c".toList⟩)] none []
        [("s".toList, ⟨some "a".toList, some "b".toList⟩)]).conflicts =
      none :=
  computeChanges_diverged_head_recursive_replay _ _ _ _ _ _
    ⟨Filemode.COMMIT, "c".toList⟩ "a".toList "b".toList (by decide)
    (by decide) (by decide) (by decide) (by decide) (by decide) (by decide)
    (by decide)

/-- Claim C3: for every target commit whose diff touches a sub-repo path
absent from the HEAD tree, if the change is a pure addition
(`oldSha == null`), `computeChanges` records the path in `simpleChanges` as
an addition — a `Submodule` carrying the incoming `newSha` and the URL
found for the path in the target commit's `.gitmodules` — and never
records it in `conflicts` (nor in `changes`). -/
theorem computeChanges_pure_addition_simple
    (headTree : List (Str × TreeEntry))
    (baseTree : Option (List (Str × TreeEntry))) (urls : List (Str × Str))
    (subChanges : List (Str × SubmoduleChange)) (sub : Str)
    (change : SubmoduleChange)
    (hnodup : (subChanges.map Prod.fst).Nodup)
    (hchange : lookupStr sub subChanges = some change)
    (hhead : lookupStr sub headTree = none)
    (hold : change.oldSha = none) :
    lookupStr sub (computeChanges headTree baseTree urls
        subChanges).simpleChanges =
      some (some ⟨lookupStr sub urls, change.newSha⟩) ∧
    lookupStr sub (computeChanges headTree baseTree urls
        subChanges).conflicts = none ∧
    lookupStr sub (computeChanges headTree baseTree urls
        subChanges).changes = none := by
  have hcl : classifySub headTree baseTree urls sub change =
      .simple (some ⟨lookupStr sub urls, change.newSha⟩) := by
    unfold classifySub
    simp only [getTreeEntry, hhead, hold]
  have main := computeChanges_foldl_lookup headTree baseTree urls subChanges
    ⟨[], [], []⟩ sub change hnodup hchange rfl rfl rfl
  rw [hcl] at main
  rw [computeChanges]
  exact ⟨main.2.1, main.2.2, main.1⟩

/-- Witness for claim C3: path `t` absent from HEAD, incoming pure addition
of sha `b` with URL `u`. -/
theorem computeChanges_pure_addition_simple_witness :
    lookupStr "t".toList (computeChanges
        [("s".toList, ⟨Filemode.COMMIT, "c".toList⟩)] none
        [("t".toList, "u".toList)]
        [("t".toList, ⟨none, some "b".toList⟩)]).simpleChanges =
      some (some ⟨some "u".toList, some "b".toList⟩) ∧
    lookupStr "t".toList (computeChanges
        [("s".toList, ⟨Filemode.COMMIT, "c".toList⟩)] none
        [("t".toList, "u".toList)]
        [("t".toList, ⟨none, some "b".toList⟩)]).conflicts = none ∧
    lookupStr "t".toList (computeChanges
        [("s".toList, ⟨Filemode.COMMIT, "c".toList⟩)] none
        [("t".toList, "u".toList)]
        [("t".toList, ⟨none, some "b".toList⟩)]).changes = none :=
  computeChanges_pure_addition_simple
    [("s".toList, ⟨Filemode.COMMIT, "c".toList⟩)] none
    [("t".toList, "u".toList)] [("t".toList, ⟨none, some "b".toList⟩)]
    "t".toList ⟨none, some "b".toList⟩ (by decide) (by decide) (by decide)
    (by decide)

/-! ## Lemmas about the conflict report and `cherryPick` -/

theorem length_le_foldl_append (g : Str → Str) (names : List Str) :
    ∀ msg : Str,
      msg.length ≤ (names.foldl (fun m name => m ++ g name) msg).length := by
  induction names with
  | nil => simp
  | cons n rest ih =>
    intro msg
    calc msg.length ≤ (msg ++ g n).length := by simp
    _ ≤ _ := ih (msg ++ g n)

theorem foldl_append_ne_nil (g : Str → Str) (hg : ∀ name, g name ≠ [])
    {names : List Str} (h : names ≠ []) (msg : Str) :
    names.foldl (fun m name => m ++ g name) msg ≠ [] := by
  obtain ⟨n, rest, rfl⟩ := List.exists_cons_of_ne_nil h
  simp only [List.foldl_cons]
  intro hnil
  have hlen := length_le_foldl_append g rest (msg ++ g n)
  rw [hnil] at hlen
  simp only [List.length_nil, List.length_append, Nat.le_zero,
    Nat.add_eq_zero] at hlen
  exact hg n (List.eq_nil_of_length_eq_zero hlen.2)

theorem insertStr_ne_nil (x : Str) (l : List Str) : insertStr x l ≠ [] := by
  cases l with
  | nil => simp [insertStr]
  | cons y rest =>
    simp only [insertStr]
    split <;> simp

theorem sortStrs_eq_nil {l : List Str} : sortStrs l = [] ↔ l = [] := by
  cases l with
  | nil => simp [sortStrs]
  | cons x rest =>
    simp only [sortStrs]
    exact ⟨fun h => absurd h (insertStr_ne_nil _ _), fun h => absurd h (by simp)⟩

theorem writeConflicts_nil : writeConflicts [] = [] := rfl

theorem writeConflicts_ne_nil {conflicts : List (Str × Conflict)}
    (h : conflicts ≠ []) : writeConflicts conflicts ≠ [] := by
  unfold writeConflicts
  apply foldl_append_ne_nil
  · intro name
    simp
  · rw [Ne, sortStrs_eq_nil, List.map_eq_nil_iff]
    exact h

/-! ## Claims about `cherryPick` -/

/-- Claim C1: whenever the aggregated conflict report of a cherry-pick
(classifier conflicts plus recursive-pick conflicts) is non-empty,
`cherryPick` returns a result whose `newMetaCommit` is null and whose
`errorMessage` is non-null, creates no meta-repo commit, and leaves the
sequencer state in place: the sequencer record is written and no
`cleanSequencerState` call occurs. -/
theorem cherryPick_conflict_report_no_commit (env : CherryPickEnv)
    (h1 : env.sequencerInProgress = false)
    (h2 : env.isDeepClean = true)
    (h3 : env.hasUrlChanges = false)
    (h4 : (computeChanges env.headTree env.baseTree env.urls
            env.subChanges).conflicts ≠ [] ∨
          (pickSubs env.rewrite (computeChanges env.headTree env.baseTree
            env.urls env.subChanges).changes).conflicts ≠ []) :
    ∃ r, (cherryPick env).1 = .ok r ∧
      r.newMetaCommit = none ∧
      r.errorMessage ≠ none ∧
      Action.writeSeq ⟨.CHERRY_PICK, ⟨env.headSha, none⟩,
        ⟨env.commitSha, none⟩, [env.commitSha], 0⟩ ∈ (cherryPick env).2 ∧
      ∀ a ∈ (cherryPick env).2, a ≠ .cleanSeq ∧ a.isCreateCommit = false := by
  have hmsg : writeConflicts (computeChanges env.headTree env.baseTree
        env.urls env.subChanges).conflicts ++
      (sortStrs ((pickSubs env.rewrite (computeChanges env.headTree
        env.baseTree env.urls env.subChanges).changes).conflicts.map
        (·.1))).foldl
        (fun msg name =>
          msg ++ ("Submodule ".toList ++ colorsRed name
              ++ " is conflicted.\n".toList))
        [] ≠ [] := by
    rcases h4 with h4 | h4
    · intro hnil
      rw [List.append_eq_nil] at hnil
      exact writeConflicts_ne_nil h4 hnil.1
    · intro hnil
      rw [List.append_eq_nil] at hnil
      refine foldl_append_ne_nil _ ?_ ?_ [] hnil.2
      · intro name
        simp
      · rw [Ne, sortStrs_eq_nil, List.map_eq_nil_iff]
        exact h4
  unfold cherryPick
  rw [h1, h2, h3]
  simp only [Bool.not_true, if_neg (by simp : ¬(false = true)),
    Bool.false_eq_true, if_false]
  rw [if_neg hmsg]
  refine ⟨_, rfl, rfl, by simp, ?_, ?_⟩
  · exact List.mem_append_left _
      (List.mem_append_left _ (List.mem_cons_self _ _))
  intro a ha
  simp only [List.mem_append, List.mem_cons, List.mem_singleton,
    List.mem_map, List.not_mem_nil, or_false] at ha
  rcases ha with ((rfl | rfl | rfl) | ⟨p, -, rfl⟩) | rfl <;>
    simp [Action.isCreateCommit]

/-- Witness for claim C1 at a concrete environment whose single touched
path conflicts (it is a plain file in HEAD, not a submodule pointer). -/
theorem cherryPick_conflict_report_no_commit_witness :
    ∃ r, (cherryPick sampleConflictEnv).1 = .ok r ∧
      r.newMetaCommit = none ∧
      r.errorMessage ≠ none ∧
      Action.writeSeq ⟨.CHERRY_PICK, ⟨sampleConflictEnv.headSha, none⟩,
        ⟨sampleConflictEnv.commitSha, none⟩, [sampleConflictEnv.commitSha],
        0⟩ ∈ (cherryPick sampleConflictEnv).2 ∧
      ∀ a ∈ (cherryPick sampleConflictEnv).2,
        a ≠ .cleanSeq ∧ a.isCreateCommit = false :=
  cherryPick_conflict_report_no_commit sampleConflictEnv (by decide)
    (by decide) (by decide) (by decide)

/-- Claim C6: if the meta-repo's status is not deeply clean, or the target
commit contains submodule URL changes, `cherryPick` throws a `UserError`
before writing any sequencer state and before any index, tree, or
submodule mutation: its effect log is empty. -/
theorem cherryPick_precondition_throws_before_mutation (env : CherryPickEnv)
    (h : env.isDeepClean = false ∨ env.hasUrlChanges = true) :
    (∃ msg, (cherryPick env).1 = .error msg) ∧ (cherryPick env).2 = [] := by
  unfold cherryPick
  cases hseq : env.sequencerInProgress with
  | true => exact ⟨⟨_, rfl⟩, rfl⟩
  | false =>
    cases hdc : env.isDeepClean with
    | false => exact ⟨⟨_, rfl⟩, rfl⟩
    | true =>
      cases hu : env.hasUrlChanges with
      | true => exact ⟨⟨_, rfl⟩, rfl⟩
      | false =>
        rcases h with h | h
        · rw [hdc] at h
          exact absurd h (by simp)
        · rw [hu] at h
          exact absurd h (by simp)

/-- Witness for claim C6: a dirty tree causes a thrown error with no
effects. -/
theorem cherryPick_precondition_throws_before_mutation_witness :
    (∃ msg, (cherryPick { sampleCleanEnv with isDeepClean := false }).1 =
      .error msg) ∧
    (cherryPick { sampleCleanEnv with isDeepClean := false }).2 = [] :=
  cherryPick_precondition_throws_before_mutation _ (Or.inl rfl)

/-- Claim C7, as stated, is false: `finish` calls
`createCommitOnHead([], defaultSig, commit.committer(), commit.message())`,
so the created meta commit's *author* is the repository's default
signature, not the foreign commit's author.  At a clean environment whose
foreign author (`alice`) differs from the default signature (`bob`), the
run completes and creates a commit, yet no created commit carries the
foreign author; the one commit created carries the default signature. -/
theorem cherryPick_author_copied_counterexample :
    (cherryPick sampleCleanEnv).1 =
      .ok ⟨some "n".toList, [], none⟩ ∧
    ((cherryPick sampleCleanEnv).2.any
      (fun a => a.createsWithAuthor sampleCleanEnv.commitAuthor)) = false ∧
    ((cherryPick sampleCleanEnv).2.any
      (fun a => a.createsWithAuthor sampleCleanEnv.defaultSignature)) =
      true ∧
    ((cherryPick sampleCleanEnv).2.countP Action.isCreateCommit) = 1 := by
  decide

/-- Claim C7 (amended): for every cherry-pick that completes with an empty
conflict report: if at least one simple change or sub-repo pick happened,
`cherryPick` creates exactly one meta-repo commit — parent the original
HEAD, *author the repository's default signature*, committer and message
copied from the foreign commit — and then clears the sequencer state;
if nothing changed at all, it clears the sequencer state and raises the
"Nothing to commit." user error without creating any commit. -/
theorem cherryPick_finish_amended (env : CherryPickEnv)
    (h1 : env.sequencerInProgress = false)
    (h2 : env.isDeepClean = true)
    (h3 : env.hasUrlChanges = false)
    (hc : (computeChanges env.headTree env.baseTree env.urls
            env.subChanges).conflicts = [])
    (hpc : (pickSubs env.rewrite (computeChanges env.headTree env.baseTree
            env.urls env.subChanges).changes).conflicts = []) :
    ((computeChanges env.headTree env.baseTree env.urls
        env.subChanges).simpleChanges = [] ∧
     (pickSubs env.rewrite (computeChanges env.headTree env.baseTree
        env.urls env.subChanges).changes).commits = [] →
      (cherryPick env).1 = .error "Nothing to commit.".toList ∧
      (cherryPick env).2.getLast? = some .cleanSeq ∧
      ∀ a ∈ (cherryPick env).2, a.isCreateCommit = false) ∧
    ((computeChanges env.headTree env.baseTree env.urls
        env.subChanges).simpleChanges ≠ [] ∨
     (pickSubs env.rewrite (computeChanges env.headTree env.baseTree
        env.urls env.subChanges).changes).commits ≠ [] →
      (cherryPick env).1 = .ok ⟨some env.newCommitSha,
        (pickSubs env.rewrite (computeChanges env.headTree env.baseTree
          env.urls env.subChanges).changes).commits, none⟩ ∧
      ((cherryPick env).2.countP Action.isCreateCommit) = 1 ∧
      ∃ pre, (cherryPick env).2 = pre ++
          [.createCommit env.headSha env.defaultSignature
             env.commitCommitter env.commitMessage, .cleanSeq] ∧
        ∀ a ∈ pre, a ≠ .cleanSeq ∧ a.isCreateCommit = false) := by
  have hmsg : writeConflicts (computeChanges env.headTree env.baseTree
        env.urls env.subChanges).conflicts ++
      (sortStrs ((pickSubs env.rewrite (computeChanges env.headTree
        env.baseTree env.urls env.subChanges).changes).conflicts.map
        (·.1))).foldl
        (fun msg name =>
          msg ++ ("Submodule ".toList ++ colorsRed name
              ++ " is conflicted.\n".toList))
        [] = [] := by
    rw [hc, hpc, writeConflicts_nil]
    rfl
  unfold cherryPick
  rw [h1, h2, h3]
  simp only [Bool.not_true, Bool.false_eq_true, if_false]
  rw [if_pos hmsg]
  constructor
  · intro hnothing
    rw [if_pos hnothing]
    refine ⟨rfl, ?_, ?_⟩
    · rw [List.getLast?_concat]
    · intro a ha
      simp only [List.append_assoc, List.mem_append, List.mem_cons,
        List.mem_singleton, List.mem_map, List.not_mem_nil, or_false] at ha
      rcases ha with (rfl | rfl | rfl) | ⟨p, -, rfl⟩ | rfl | rfl <;>
        simp [Action.isCreateCommit]
  · intro hsomething
    rw [if_neg (by
      intro hcontra
      rcases hsomething with hx | hx <;> [exact hx hcontra.1;
        exact hx hcontra.2])]
    refine ⟨rfl, ?_, ?_⟩
    · unfold finish
      simp only [List.countP_append, List.countP_cons, List.countP_nil]
      have hzm : List.countP Action.isCreateCommit
          ((computeChanges env.headTree env.baseTree env.urls
            env.subChanges).changes.map (fun p => Action.pickSub p.1)) =
          0 := by
        rw [List.countP_eq_zero]
        intro a ha
        obtain ⟨p, -, rfl⟩ := List.mem_map.1 ha
        simp [Action.isCreateCommit]
      rw [hzm]
      simp [Action.isCreateCommit]
    · refine ⟨_, rfl, ?_⟩
      intro a ha
      simp only [List.mem_append, List.mem_cons, List.mem_singleton,
        List.mem_map, List.not_mem_nil, or_false] at ha
      rcases ha with ((rfl | rfl | rfl) | ⟨p, -, rfl⟩) | rfl <;>
        simp [Action.isCreateCommit]

/-- Witness for the amended claim C7 at the clean sample environment (one
simple addition, nothing to conflict). -/
theorem cherryPick_finish_amended_witness :
    (cherryPick sampleCleanEnv).1 = .ok ⟨some sampleCleanEnv.newCommitSha,
      (pickSubs sampleCleanEnv.rewrite (computeChanges
        sampleCleanEnv.headTree sampleCleanEnv.baseTree sampleCleanEnv.urls
        sampleCleanEnv.subChanges).changes).commits, none⟩ ∧
    ((cherryPick sampleCleanEnv).2.countP Action.isCreateCommit) = 1 :=
  have h := (cherryPick_finish_amended sampleCleanEnv rfl rfl rfl (by decide)
    (by decide)).2 (Or.inl (by decide))
  ⟨h.1, h.2.1⟩

/-! ## Lemmas about `parseSubmoduleConfig` -/

/-- The parser loop computes exactly the declarative "last URL under the
most recent header" reading, falling back to the accumulated map. -/
theorem parseSubmoduleConfigGo_lastUrlFor :
    ∀ (lines : List Str) (last : Option Str) (acc : Str → Option Str)
      (name : Str),
      parseSubmoduleConfigGo lines last acc name =
        (match lastUrlFor last lines name with
         | some v => some v
         | none => acc name) := by
  intro lines
  induction lines with
  | nil => intro last acc name; rfl
  | cons line rest ih =>
    intro last acc name
    cases hh : execSubmoduleHeader line with
    | some n =>
      simp only [parseSubmoduleConfigGo, lastUrlFor, hh]
      exact ih (some n) acc name
    | none =>
      cases last with
      | none =>
        simp only [parseSubmoduleConfigGo, lastUrlFor, hh]
        exact ih none acc name
      | some nm =>
        cases hu : execUrlLine line with
        | none =>
          simp only [parseSubmoduleConfigGo, lastUrlFor, hh, hu]
          exact ih (some nm) acc name
        | some u =>
          simp only [parseSubmoduleConfigGo, lastUrlFor, hh, hu]
          rw [ih (some nm) _ name]
          cases h2 : lastUrlFor (some nm) rest name with
          | some v => rfl
          | none =>
            by_cases hnm : name = nm
            · simp [hnm]
            · simp [hnm]

/-- With no header line anywhere, the declarative reading finds nothing. -/
theorem lastUrlFor_none_of_no_header (name : Str) :
    ∀ lines : List Str, (∀ line ∈ lines, execSubmoduleHeader line = none) →
      lastUrlFor none lines name = none := by
  intro lines
  induction lines with
  | nil => intro _; rfl
  | cons line rest ih =>
    intro h
    have hh : execSubmoduleHeader line = none := h line (by simp)
    simp only [lastUrlFor, hh]
    exact ih (fun l hl => h l (List.mem_cons_of_mem _ hl))

/-! ## Claim about `parseSubmoduleConfig` -/

/-- Claim C10: `parseSubmoduleConfig` records a `url = ` line only under
some preceding `[submodule "name"]` header; the URL is associated with the
most recently seen section name, and for a name receiving several url
lines the last one wins — precisely: the parsed map agrees everywhere with
the declarative `lastUrlFor` reading; moreover the empty string parses to
the empty map, and a text with no header line parses to the empty map. -/
theorem parseSubmoduleConfig_lastUrl (text : Str) (name : Str) :
    parseSubmoduleConfig text name =
      lastUrlFor none (jsSplit '\n' text) name ∧
    parseSubmoduleConfig [] name = none ∧
    ((∀ line ∈ jsSplit '\n' text, execSubmoduleHeader line = none) →
      parseSubmoduleConfig text name = none) := by
  have key := parseSubmoduleConfigGo_lastUrlFor (jsSplit '\n' text) none
    (fun _ => none) name
  have h1 : parseSubmoduleConfig text name =
      lastUrlFor none (jsSplit '\n' text) name := by
    rw [parseSubmoduleConfig, key]
    cases lastUrlFor none (jsSplit '\n' text) name <;> rfl
  refine ⟨h1, rfl, ?_⟩
  intro hno
  rw [h1, lastUrlFor_none_of_no_header name _ hno]

/-- Witness for claim C10: a header followed by a url line parses to that
binding; a url line with no preceding header is ignored. -/
theorem parseSubmoduleConfig_lastUrl_witness :
    parseSubmoduleConfig "[submodule \"s\"]\nurl = u".toList "s".toList =
      some "u".toList ∧
    parseSubmoduleConfig "url = u".toList "s".toList = none := by
  constructor
  · rw [(parseSubmoduleConfig_lastUrl "[submodule \"s\"]\nurl = u".toList
      "s".toList).1]
    decide
  · exact (parseSubmoduleConfig_lastUrl "url = u".toList "s".toList).2.2
      (by decide)

/-! ## Lemmas about the bounded work queue -/

theorem pstep_none {s : PState β} (queue : List α) (getWork : α → Nat → β)
    {w : Nat} (h : s.workers.get? w = none) :
    pstep queue getWork s w = s := by
  rw [List.get?_eq_getElem?] at h
  simp [pstep, h]

theorem pstep_done {s : PState β} (queue : List α) (getWork : α → Nat → β)
    {w : Nat} (h : s.workers.get? w = some .done) :
    pstep queue getWork s w = s := by
  rw [List.get?_eq_getElem?] at h
  simp [pstep, h]

theorem pstep_ready_finish {s : PState β} (queue : List α)
    (getWork : α → Nat → β) {w : Nat} (h : s.workers.get? w = some .ready)
    (hlen : s.next = queue.length) :
    pstep queue getWork s w =
      ⟨s.next, s.result, s.workers.set w .done⟩ := by
  rw [List.get?_eq_getElem?] at h
  simp [pstep, h, hlen]

theorem pstep_ready_claim {s : PState β} (queue : List α)
    (getWork : α → Nat → β) {w : Nat} (h : s.workers.get? w = some .ready)
    (hlen : ¬s.next = queue.length) :
    pstep queue getWork s w =
      ⟨s.next + 1, s.result, s.workers.set w (.running s.next)⟩ := by
  rw [List.get?_eq_getElem?] at h
  simp [pstep, h, hlen]

theorem pstep_running {s : PState β} (queue : List α)
    (getWork : α → Nat → β) {w i : Nat}
    (h : s.workers.get? w = some (.running i)) :
    pstep queue getWork s w =
      ⟨s.next, s.result.set i ((queue.get? i).map (fun a => getWork a i)),
       s.workers.set w .ready⟩ := by
  rw [List.get?_eq_getElem?] at h
  simp [pstep, h]

theorem parallelInv_init (queue : List α) (getWork : α → Nat → β) :
    parallelInv queue getWork (initPState β queue) := by
  refine ⟨Nat.zero_le _, by simp [initPState], by simp [initPState],
    ?_, ?_, ?_⟩
  · intro i hi
    exact absurd hi (by simp [initPState])
  · intro w i hw
    simp only [initPState, List.get?_eq_getElem?,
      List.getElem?_replicate] at hw
    split at hw
    · exact absurd (Option.some_inj.mp hw) (by simp)
    · exact absurd hw (by simp)
  · intro hdone
    exact absurd (List.eq_of_mem_replicate hdone) (by simp)

theorem parallelInv_step (queue : List α) (getWork : α → Nat → β)
    {s : PState β} (h : parallelInv queue getWork s) (w : Nat) :
    parallelInv queue getWork (pstep queue getWork s w) := by
  obtain ⟨h1, h2, h3, h4, h5, h6⟩ := h
  cases hw : s.workers.get? w with
  | none => rw [pstep_none queue getWork hw]; exact ⟨h1, h2, h3, h4, h5, h6⟩
  | some ws =>
    have hwlt : w < s.workers.length := (List.get?_eq_some.mp hw).1
    cases ws with
    | done => rw [pstep_done queue getWork hw]; exact ⟨h1, h2, h3, h4, h5, h6⟩
    | ready =>
      by_cases hlen : s.next = queue.length
      · rw [pstep_ready_finish queue getWork hw hlen]
        refine ⟨h1, h2, by simpa using h3, ?_, ?_, fun _ => hlen⟩
        · intro i hi
          rcases h4 i hi with hr | ⟨w', hw'⟩
          · exact Or.inl hr
          · have hne : w ≠ w' := by
              intro he
              rw [← he, hw] at hw'
              exact absurd (Option.some_inj.mp hw') (by simp)
            exact Or.inr ⟨w', by
              show (s.workers.set w WState.done).get? w' = _
              rw [List.get?_set_ne _ _ hne]
              exact hw'⟩
        · intro w' i hw'
          dsimp only at hw'
          by_cases he : w = w'
          · subst he
            rw [List.get?_set_eq_of_lt _ hwlt] at hw'
            exact absurd (Option.some_inj.mp hw') (by simp)
          · rw [List.get?_set_ne _ _ he] at hw'
            exact h5 w' i hw'
      · rw [pstep_ready_claim queue getWork hw hlen]
        refine ⟨by dsimp only; omega, h2, by simpa using h3, ?_, ?_, ?_⟩
        · intro i hi
          dsimp only at hi ⊢
          rcases Nat.lt_succ_iff_lt_or_eq.mp hi with hi' | rfl
          · rcases h4 i hi' with hr | ⟨w', hw'⟩
            · exact Or.inl hr
            · have hne : w ≠ w' := by
                intro he
                rw [← he, hw] at hw'
                exact absurd (Option.some_inj.mp hw') (by simp)
              exact Or.inr ⟨w', by rw [List.get?_set_ne _ _ hne]; exact hw'⟩
          · exact Or.inr ⟨w, by rw [List.get?_set_eq_of_lt _ hwlt]⟩
        · intro w' i hw'
          dsimp only at hw' ⊢
          by_cases he : w = w'
          · subst he
            rw [List.get?_set_eq_of_lt _ hwlt] at hw'
            have hrun := Option.some_inj.mp hw'
            cases hrun
            omega
          · rw [List.get?_set_ne _ _ he] at hw'
            have := h5 w' i hw'
            omega
        · intro hdone
          dsimp only at hdone ⊢
          rcases List.mem_or_eq_of_mem_set hdone with hmem | habs
          · exact absurd (h6 hmem) hlen
          · exact absurd habs (by simp)
    | running i =>
      have hilt : i < s.next := h5 w i hw
      have hires : i < s.result.length := by omega
      rw [pstep_running queue getWork hw]
      refine ⟨h1, by simpa using h2, by simpa using h3, ?_, ?_, ?_⟩
      · intro j hj
        dsimp only at hj ⊢
        by_cases hji : j = i
        · subst hji
          exact Or.inl (by rw [List.get?_set_eq_of_lt _ hires])
        · rcases h4 j hj with hr | ⟨w', hw'⟩
          · refine Or.inl ?_
            rw [List.get?_set_ne _ _ (fun he => hji he.symm)]
            exact hr
          · have hne : w ≠ w' := by
              intro he
              rw [← he, hw] at hw'
              have hrun := Option.some_inj.mp hw'
              cases hrun
              exact hji rfl
            exact Or.inr ⟨w', by rw [List.get?_set_ne _ _ hne]; exact hw'⟩
      · intro w' j hw'
        dsimp only at hw' ⊢
        by_cases he : w = w'
        · subst he
          rw [List.get?_set_eq_of_lt _ hwlt] at hw'
          exact absurd (Option.some_inj.mp hw') (by simp)
        · rw [List.get?_set_ne _ _ he] at hw'
          exact h5 w' j hw'
      · intro hdone
        dsimp only at hdone ⊢
        rcases List.mem_or_eq_of_mem_set hdone with hmem | habs
        · exact h6 hmem
        · exact absurd habs (by simp)

theorem parallelInv_exec (queue : List α) (getWork : α → Nat → β)
    (choices : List Nat) :
    parallelInv queue getWork (execSchedule queue getWork choices) := by
  unfold execSchedule
  suffices h : ∀ s, parallelInv queue getWork s →
      parallelInv queue getWork
        (choices.foldl (pstep queue getWork) s) from
    h _ (parallelInv_init queue getWork)
  induction choices with
  | nil => exact fun s hs => hs
  | cons c rest ih =>
    intro s hs
    exact ih _ (parallelInv_step queue getWork hs c)

/-- Any complete execution of the work queue resolves every index of the
result array to the work applied to the queue element at that index. -/
theorem execSchedule_allDone_result (queue : List α) (getWork : α → Nat → β)
    (choices : List Nat)
    (h : (execSchedule queue getWork choices).allDone = true) :
    (execSchedule queue getWork choices).result.length = queue.length ∧
    ∀ i (hi : i < queue.length),
      (execSchedule queue getWork choices).result.get? i =
        some (some (getWork (queue.get ⟨i, hi⟩) i)) := by
  obtain ⟨h1, h2, h3, h4, h5, h6⟩ := parallelInv_exec queue getWork choices
  set s := execSchedule queue getWork choices with hs
  have halldone : ∀ st ∈ s.workers, st = .done := by
    intro st hst
    have := List.all_eq_true.mp h st hst
    simpa using this
  have hnext : s.next = queue.length := by
    apply h6
    have hlen0 : 0 < s.workers.length := by
      rw [h3]
      decide
    have hmem : s.workers.get ⟨0, hlen0⟩ ∈ s.workers :=
      List.get_mem _ _ hlen0
    rw [halldone _ hmem] at hmem
    exact hmem
  refine ⟨h2, ?_⟩
  intro i hi
  have hi' : i < s.next := by omega
  rcases h4 i hi' with hr | ⟨w', hw'⟩
  · rw [hr, List.get?_eq_get hi]
    rfl
  · have hmem : WState.running i ∈ s.workers := List.get?_mem hw'
    exact absurd (halldone _ hmem) (by simp)

/-! ## Claims about the work queue -/

/-- Claim C8: for every input `queue` and work function, every complete
execution of `doInParallel` — every schedule of the hundred workers whose
final state has all workers finished, regardless of completion order —
yields a result array of the queue's length whose element at each index
`i` is the work applied to `queue[i]` with index `i`. -/
theorem doInParallel_preserves_input_order (queue : List α)
    (getWork : α → Nat → β) (choices : List Nat)
    (h : (execSchedule queue getWork choices).allDone = true) :
    (execSchedule queue getWork choices).result.length = queue.length ∧
    ∀ i (hi : i < queue.length),
      (execSchedule queue getWork choices).result.get? i =
        some (some (getWork (queue.get ⟨i, hi⟩) i)) :=
  execSchedule_allDone_result queue getWork choices h

set_option maxRecDepth 100000 in
/-- Witness for claim C8: queue `[0, 1, 2]` with work `i ↦ i * 2` under a
schedule where worker 0 does everything before the join; index 1 holds 2. -/
theorem doInParallel_preserves_input_order_witness :
    (execSchedule [0, 1, 2] (fun a _ => a * 2)
      ([0, 0, 0, 0, 0, 0] ++ List.range 100)).allDone = true ∧
    (execSchedule [0, 1, 2] (fun a _ => a * 2)
      ([0, 0, 0, 0, 0, 0] ++ List.range 100)).result.get? 1 =
      some (some 2) := by
  refine ⟨by decide, ?_⟩
  have h := (doInParallel_preserves_input_order [0, 1, 2] (fun a _ => a * 2)
    ([0, 0, 0, 0, 0, 0] ++ List.range 100) (by decide)).2 1 (by decide)
  simpa using h

/-! ## Lemmas about `doInBatches` -/

theorem batchQueueGo_congr :
    ∀ {f g : Nat} {q : List α} {n : Nat}, q.length ≤ f → q.length ≤ g →
      batchQueueGo f q n = batchQueueGo g q n := by
  intro f
  induction f with
  | zero =>
    intro g q n hf _
    have hq : q = [] := List.eq_nil_of_length_eq_zero (by omega)
    subst hq
    cases g <;> rfl
  | succ f ih =>
    intro g q n hf hg
    cases q with
    | nil => cases g <;> rfl
    | cons x xs =>
      cases n with
      | zero =>
        cases g with
        | zero => simp at hg
        | succ g => rfl
      | succ n =>
        cases g with
        | zero => simp at hg
        | succ g =>
          show (x :: xs.take n) :: batchQueueGo f (xs.drop n) (n + 1) =
               (x :: xs.take n) :: batchQueueGo g (xs.drop n) (n + 1)
          congr 1
          exact ih (by simp only [List.length_drop]; simp at hf; omega)
                   (by simp only [List.length_drop]; simp at hg; omega)

theorem batchQueue_cons (x : α) (xs : List α) (n : Nat) :
    batchQueue (x :: xs) (n + 1) =
      (x :: xs.take n) :: batchQueue (xs.drop n) (n + 1) := by
  show batchQueueGo (x :: xs).length (x :: xs) (n + 1) =
       (x :: xs.take n) :: batchQueueGo (xs.drop n).length (xs.drop n) (n + 1)
  rw [show (x :: xs).length = xs.length + 1 from rfl]
  show (x :: xs.take n) :: batchQueueGo xs.length (xs.drop n) (n + 1) = _
  congr 1
  exact batchQueueGo_congr (by simp) le_rfl

/-- The chunks of `doInBatches` partition the queue in order. -/
theorem batchQueue_flatten (n : Nat) :
    ∀ (k : Nat) (q : List α), q.length ≤ k →
      (batchQueue q (n + 1)).flatten = q := by
  intro k
  induction k with
  | zero =>
    intro q hq
    have : q = [] := List.eq_nil_of_length_eq_zero (by omega)
    subst this
    rfl
  | succ k ih =>
    intro q hq
    cases q with
    | nil => rfl
    | cons x xs =>
      rw [batchQueue_cons]
      simp only [List.flatten_cons]
      rw [ih (xs.drop n) (by simp only [List.length_drop]; simp at hq; omega)]
      simp only [List.cons_append]
      rw [List.take_append_drop]

theorem mapIdx_index_free (g : α → β) :
    ∀ l : List α, l.mapIdx (fun _ c => g c) = l.map g := by
  intro l
  induction l with
  | nil => rfl
  | cons x rest ih => simp [List.mapIdx_cons, ih]

/-- `doInBatches` with a per-chunk elementwise worker computes the
elementwise map. -/
theorem doInBatches_mapIdx (queue : List α) (batches : Nat) (f : α → β)
    (h : 1 ≤ batches) :
    doInBatches queue batches (fun c _ => c.map f) = queue.map f := by
  unfold doInBatches
  cases hbs : (queue.length + batches - 1) / batches with
  | zero =>
    have hq : queue = [] := by
      have := Nat.div_eq_zero_iff (by omega : 0 < batches) |>.mp hbs
      exact List.eq_nil_of_length_eq_zero (by omega)
    subst hq
    rfl
  | succ m =>
    dsimp only
    rw [mapIdx_index_free (List.map f) (batchQueue queue (m + 1))]
    rw [← List.map_flatten]
    rw [batchQueue_flatten m queue.length queue le_rfl]

/-! ## Claim about `doInBatches` -/

/-- Claim C9: for every queue, every `batches >= 1` and every element
function `f`, `doInBatches` with a batch worker applying `f` elementwise
returns exactly the elementwise map of `f` in input order: the chunks of
size `ceil(queue.length / batches)` partition the queue in order, the
concatenated per-chunk results equal `map f queue`, and they agree with
the result of every complete `doInParallel` execution of `f` over the same
queue. -/
theorem doInBatches_refines_doInParallel (queue : List α) (batches : Nat)
    (f : α → β) (h : 1 ≤ batches) :
    (batchQueue queue ((queue.length + batches - 1) / batches)).flatten =
      queue ∧
    doInBatches queue batches (fun c _ => c.map f) = queue.map f ∧
    ∀ choices : List Nat,
      (execSchedule queue (fun a _ => f a) choices).allDone = true →
      (execSchedule queue (fun a _ => f a) choices).result =
        (doInBatches queue batches (fun c _ => c.map f)).map some := by
  have hflat : (batchQueue queue
      ((queue.length + batches - 1) / batches)).flatten = queue := by
    cases hbs : (queue.length + batches - 1) / batches with
    | zero =>
      have hq : queue = [] := by
        have := Nat.div_eq_zero_iff (by omega : 0 < batches) |>.mp hbs
        exact List.eq_nil_of_length_eq_zero (by omega)
      subst hq
      rfl
    | succ m => exact batchQueue_flatten m queue.length queue le_rfl
  refine ⟨hflat, doInBatches_mapIdx queue batches f h, ?_⟩
  intro choices hdone
  obtain ⟨hlen, hpt⟩ :=
    execSchedule_allDone_result queue (fun a _ => f a) choices hdone
  rw [doInBatches_mapIdx queue batches f h, List.map_map]
  apply List.ext_get?
  intro n
  by_cases hn : n < queue.length
  · rw [hpt n hn, List.get?_map, List.get?_eq_get hn]
    rfl
  · rw [List.get?_len_le (by omega), List.get?_len_le (by simp; omega)]

/-- Witness for claim C9: three elements in two batches (chunk size 2). -/
theorem doInBatches_refines_doInParallel_witness :
    (batchQueue [10, 20, 30]
      (([10, 20, 30].length + 2 - 1) / 2)).flatten = [10, 20, 30] ∧
    doInBatches [10, 20, 30] 2 (fun c _ => c.map (fun a => a + 1)) =
      [11, 21, 31] := by
  have h := doInBatches_refines_doInParallel [10, 20, 30] 2
    (fun a => a + 1) (by decide)
  refine ⟨h.1, ?_⟩
  rw [h.2.1]
  rfl

end GitMeta
